import Mathlib

/-!
Verification of the MCA name-eligibility engine
(`src/company_mca/tools/custom_tool.py`, class `MCANameChecker`).

Strings are modelled as lists of Unicode codepoints (`List Nat`), matching
Python's view of `str` as a sequence of codepoints.  Lower-casing and the
whitespace class are modelled on their ASCII fragment, which is the fragment
the engine's rules (regexes `[^a-zA-Z0-9\s]`, suffix lists, prohibited words)
are written in.
-/

/-- A Python string, as its list of codepoints. -/
abbrev Str := List Nat

/-- Codepoints of a Lean string literal, used to write concrete inputs. -/
def strToCodes (s : String) : Str := s.data.map Char.toNat

/-- Whitespace codepoints (the ASCII part of Python's `\s` / `str.strip`):
space, tab, newline, carriage return, vertical tab, form feed. -/
def isWsCp (n : Nat) : Bool :=
  n == 32 || n == 9 || n == 10 || n == 13 || n == 11 || n == 12

/-- ASCII uppercase letter `A`-`Z`. -/
def isUpperCp (n : Nat) : Bool := 65 ≤ n && n ≤ 90

/-- ASCII lowercase letter `a`-`z`. -/
def isLowerCp (n : Nat) : Bool := 97 ≤ n && n ≤ 122

/-- ASCII digit `0`-`9`. -/
def isDigitCp (n : Nat) : Bool := 48 ≤ n && n ≤ 57

/-- ASCII letter or digit, the class `[a-zA-Z0-9]`. -/
def isAlnumCp (n : Nat) : Bool := isUpperCp n || isLowerCp n || isDigitCp n

/-- Python `str.lower` on the ASCII fragment: map `A`-`Z` to `a`-`z`. -/
def lowerCp (n : Nat) : Nat := if 65 ≤ n ∧ n ≤ 90 then n + 32 else n

/-- Python `name.lower()`. -/
def lowerStr (s : Str) : Str := s.map lowerCp

/-- Python `str.lstrip()` (whitespace only). -/
def trimLeft (s : Str) : Str := s.dropWhile isWsCp

/-- Python `str.rstrip()` (whitespace only). -/
def trimRight (s : Str) : Str := (trimLeft s.reverse).reverse

/-- Python `str.strip()` (whitespace only). -/
def trim (s : Str) : Str := trimLeft (trimRight s)

/-- Whether `s` starts with `pat` (Python `str.startswith`). -/
def startsWithB : Str → Str → Bool
  | _, [] => true
  | [], _ :: _ => false
  | a :: as, b :: bs => a == b && startsWithB as bs

/-- Whether `s` ends with `suf` (Python `str.endswith`). -/
def endsWithB (s suf : Str) : Bool := startsWithB s.reverse suf.reverse

/-- Whether `pat` occurs as a contiguous substring of `s` (Python `pat in s`). -/
def containsSub : Str → Str → Bool
  | s, pat =>
    match s with
    | [] => pat.isEmpty
    | _ :: rest => startsWithB s pat || containsSub rest pat

/-- The legal-entity suffix list of `_clean_company_name`, in source order. -/
def suffixes : List Str :=
  [strToCodes "pvt ltd", strToCodes "private limited", strToCodes "ltd",
   strToCodes "limited", strToCodes "pvt", strToCodes "private"]

/-- One iteration of the suffix loop of `_clean_company_name`:
`if cleaned.endswith(suffix): cleaned = cleaned[:-len(suffix)].strip()`. -/
def suffixStep (s : Str) (suf : Str) : Str :=
  if endsWithB s suf then trim (s.take (s.length - suf.length)) else s

/-- Characters kept by `re.sub(r'[^a-zA-Z0-9\s]', '', cleaned)`. -/
def keepChar (n : Nat) : Bool := isAlnumCp n || isWsCp n

/-- `MCANameChecker._clean_company_name` (the Normalizer): lower-case, run the
suffix loop over every suffix of the list (the loop has no early exit), strip
characters outside `[a-zA-Z0-9\s]`, and strip surrounding whitespace. -/
def clean_company_name (name : Str) : Str :=
  trim ((suffixes.foldl suffixStep (lowerStr name)).filter keepChar)

example : strToCodes "ab c" = [97, 98, 32, 99] := by decide

example : clean_company_name (strToCodes "ABC Tech Pvt Ltd") = strToCodes "abc tech" := by decide

example : clean_company_name (strToCodes "abc pvt pvt ltd") = strToCodes "abc" := by decide

/-- A candidate registry entry, the dict
`{"company_name": ..., "cin": ..., "similarity": ...}` built by the search. -/
structure Company where
  company_name : Str
  cin : String
  similarity : Nat
deriving DecidableEq

/-- Longest-common-subsequence length of two codepoint lists; `2*lcsLen` is the
matched total of an indel-only edit alignment. -/
def lcsLen : List Nat → List Nat → Nat
  | [], _ => 0
  | _ :: _, [] => 0
  | a :: as, b :: bs =>
      if a = b then lcsLen as bs + 1
      else max (lcsLen (a :: as) bs) (lcsLen as (b :: bs))
termination_by x y => x.length + y.length
decreasing_by
  all_goals simp [List.length_cons]
  all_goals omega

/-- Modelled from the spec: the Similarity Scorer (`fuzz.ratio`, spec §4.2) is
third-party library code that is not part of this repository.  Per the spec it
is "a standard edit-distance-based ratio: 100 minus a normalized edit cost,
scaled to a 0-100 integer", i.e. twice the matched length over the total
length of the two strings, scaled to 100 (identical strings, including two
empty strings, score 100). -/
def similarity (a b : Str) : Nat :=
  if a.length + b.length = 0 then 100
  else 200 * lcsLen a b / (a.length + b.length)

/-- The score computed at line 122 of the source for a candidate `c`:
`fuzz.ratio(name.lower(), self._clean_company_name(company_name.lower()))`. -/
def simScore (name : Str) (c : Company) : Nat :=
  similarity (lowerStr name) (clean_company_name (lowerStr c.company_name))

/-- `company["similarity"] = similarity` before appending to the similar list. -/
def setSim (c : Company) (s : Nat) : Company :=
  { c with similarity := s }

/-- The classification loop of `_check_company_existence` (lines 118-128):
returns `(exact_matches, similar_companies)` in source order. -/
def classifyCompanies (name : Str) : List Company → List Company × List Company
  | [] => ([], [])
  | c :: cs =>
      let s := simScore name c
      let rest := classifyCompanies name cs
      if 95 < s then (c :: rest.1, rest.2)
      else if 70 < s then (rest.1, setSim c s :: rest.2)
      else rest

/-- Insertion step of a stable descending sort by the `similarity` field,
matching Python's stable `list.sort(key=..., reverse=True)`: the new element
goes before the first element whose key is not greater than its own. -/
def insertDesc (x : Company) : List Company → List Company
  | [] => [x]
  | y :: ys => if x.similarity < y.similarity then y :: insertDesc x ys else x :: y :: ys

/-- Stable descending sort by `similarity`, the model of
`similar_companies.sort(key=lambda x: x.get("similarity", 0), reverse=True)`. -/
def sortDesc : List Company → List Company
  | [] => []
  | x :: xs => insertDesc x (sortDesc xs)

/-- The dict returned by `_check_company_existence`.  The fields that one of
the two return statements omits are `Option`s (`none` = key absent). -/
structure AvailabilityResult where
  available : Bool
  exact_matches : Option (List Company)
  existing_companies : List Company
  total_found : Option Nat
  error : Option String
deriving DecidableEq

/-- `MCANameChecker._check_company_existence` (the Conflict Search).  The
candidate fetch `_search_companies_by_name(name)` is the injected external
dependency; its outcome is passed in as an `Except` (`.error` = the call
raised, landing in the `except` branch at lines 139-144). -/
def check_company_existence (fetchRes : Except String (List Company)) (name : Str) :
    AvailabilityResult :=
  match fetchRes with
  | .error e =>
      { available := true, exact_matches := none, existing_companies := [],
        total_found := none, error := some e }
  | .ok companies =>
      let ex := (classifyCompanies name companies).1
      let si := (classifyCompanies name companies).2
      { available := ex.isEmpty && si.isEmpty,
        exact_matches := some ex,
        existing_companies := (sortDesc si).take 5,
        total_found := some companies.length,
        error := none }

/-- The distinct error messages of `_validate_naming_conventions`; the
`prohibitedWord` payload is the matched word interpolated into the message. -/
inductive ErrMsg where
  | tooShort
  | tooLong
  | prohibitedWord (w : Str)
  | startsWithDigit
deriving DecidableEq

/-- The distinct warning messages of `_validate_naming_conventions`. -/
inductive WarnMsg where
  | addSuffix
  | specialChars
  | multipleSpaces
  | leadingTrailingSpaces
deriving DecidableEq

/-- The dict returned by `_validate_naming_conventions`. -/
structure ValidationRes where
  is_valid : Bool
  errors : List ErrMsg
  warnings : List WarnMsg
  score : Int
deriving DecidableEq

/-- The prohibited-word denylist, in source order. -/
def prohibited_words : List Str :=
  [strToCodes "bank", strToCodes "insurance", strToCodes "government",
   strToCodes "ministry", strToCodes "national", strToCodes "central",
   strToCodes "reserve", strToCodes "federal", strToCodes "authority",
   strToCodes "commission", strToCodes "corporation of india",
   strToCodes "registrar", strToCodes "co-operative", strToCodes "municipal",
   strToCodes "panchayat"]

/-- The accepted legal suffixes of the validator, in source order. -/
def valid_suffixes : List Str :=
  [strToCodes "pvt ltd", strToCodes "private limited", strToCodes "pvt. ltd.",
   strToCodes "private limited.", strToCodes "limited", strToCodes "ltd",
   strToCodes "ltd."]

/-- Characters allowed by the validator's charset check
`[^a-zA-Z0-9\s\.\-&()]`: alphanumerics, whitespace, `.`, `-`, `&`, `(`, `)`. -/
def allowedValidatorChar (n : Nat) : Bool :=
  isAlnumCp n || isWsCp n || n == 46 || n == 45 || n == 38 || n == 40 || n == 41

/-- Two or more consecutive whitespace characters (`re.search(r'\s{2,}', ...)`). -/
def hasDoubleWs : Str → Bool
  | a :: b :: rest => (isWsCp a && isWsCp b) || hasDoubleWs (b :: rest)
  | _ => false

/-- `MCANameChecker._validate_naming_conventions` (the Convention Validator),
on the raw (unnormalized) name.  Error and warning lists are in the source's
append order. -/
def validate_naming_conventions (name : Str) : ValidationRes :=
  let lenErrors : List ErrMsg :=
    if name.length < 3 then [ErrMsg.tooShort]
    else if 120 < name.length then [ErrMsg.tooLong]
    else []
  let nameLower := lowerStr name
  let prohibErrors : List ErrMsg :=
    prohibited_words.filterMap fun w =>
      if containsSub nameLower w then some (ErrMsg.prohibitedWord w) else none
  let digitErrors : List ErrMsg :=
    match name with
    | [] => []
    | c :: _ => if isDigitCp c then [ErrMsg.startsWithDigit] else []
  let errors := lenErrors ++ prohibErrors ++ digitErrors
  let suffixWarn : List WarnMsg :=
    if valid_suffixes.any (fun suf => endsWithB nameLower suf) then []
    else [WarnMsg.addSuffix]
  let charWarn : List WarnMsg :=
    if name.any (fun c => !allowedValidatorChar c) then [WarnMsg.specialChars] else []
  let spaceWarn : List WarnMsg :=
    if hasDoubleWs name then [WarnMsg.multipleSpaces] else []
  let stripWarn : List WarnMsg :=
    if name = trim name then [] else [WarnMsg.leadingTrailingSpaces]
  let warnings := suffixWarn ++ charWarn ++ spaceWarn ++ stripWarn
  { is_valid := errors.isEmpty,
    errors := errors,
    warnings := warnings,
    score := max 0 (100 - 30 * (errors.length : Int) - 10 * (warnings.length : Int)) }

/-- `MCANameChecker._get_recommendation` (the Recommendation Synthesizer).
`availability.get("exact_matches")` is truthy exactly when the key is present
and the list non-empty. -/
def get_recommendation (av : AvailabilityResult) (vr : ValidationRes) : String :=
  if !av.available && !(av.exact_matches.getD []).isEmpty then
    "Name not available - exact match found in MCA database"
  else if !av.available && !av.existing_companies.isEmpty then
    "Name may be rejected - " ++ toString av.existing_companies.length
      ++ " similar companies found"
  else if !vr.is_valid then
    "Name validation failed - " ++ toString vr.errors.length
      ++ " naming convention errors"
  else if !vr.warnings.isEmpty then
    "Name available with minor issues - " ++ toString vr.warnings.length
      ++ " warnings to consider"
  else
    "Name appears available and compliant with MCA guidelines"

/-- The dict returned by `MCANameChecker._run`: either the complete result of
the `try` block (lines 29-36) or the error dict of the `except` branch
(lines 39-43), which carries only `error`, `name` and `is_available: False`. -/
inductive RunResult where
  | complete (name cleaned : Str) (is_available : Bool)
      (existing : List Company) (validation : ValidationRes) (recommendation : String)
  | errorResult (err : String) (name : Str) (is_available : Bool)
deriving DecidableEq

/-- Whether a `_run` result is the complete six-field dict. -/
def RunResult.isComplete : RunResult → Bool
  | .complete .. => true
  | .errorResult .. => false

/-- `MCANameChecker._run` (the Engine Facade).  The two fallible sub-steps are
passed in as outcomes: `fetchRes` is the candidate fetch inside
`_check_company_existence` (which absorbs its own failure), `validatorRes` is
the Convention Validator call, whose failure lands in `_run`'s `except` branch
before any result is assembled. -/
def MCA_run (fetchRes : Except String (List Company))
    (validatorRes : Except String ValidationRes) (name : Str) : RunResult :=
  let cleaned := clean_company_name name
  let av := check_company_existence fetchRes cleaned
  match validatorRes with
  | .error e => .errorResult e name false
  | .ok vr =>
      .complete name cleaned av.available av.existing_companies vr
        (get_recommendation av vr)

/-- Follows the words of the claim about the Normalizer: scan the suffix list
in order and, on the first suffix the string ends with, remove exactly that
trailing suffix and stop checking the remaining suffixes. -/
def stripSuffixFirst : Str → List Str → Str
  | s, [] => s
  | s, suf :: rest =>
      if endsWithB s suf then trim (s.take (s.length - suf.length))
      else stripSuffixFirst s rest

/-- The Normalizer as the claim describes it (first suffix match wins, scan
stops), with the rest of the pipeline unchanged. -/
def cleanClaimFirstMatch (name : Str) : Str :=
  trim ((stripSuffixFirst (lowerStr name) suffixes).filter keepChar)

/-- The suffix scan as the code actually behaves: walk the list in order and
remove every suffix the current string ends with, continuing after a match. -/
def stripSuffixScan : Str → List Str → Str
  | s, [] => s
  | s, suf :: rest =>
      if endsWithB s suf then
        stripSuffixScan (trim (s.take (s.length - suf.length))) rest
      else stripSuffixScan s rest

/-- The Normalizer with the scanning suffix loop made explicit. -/
def cleanScanAll (name : Str) : Str :=
  trim ((stripSuffixScan (lowerStr name) suffixes).filter keepChar)

example : cleanClaimFirstMatch (strToCodes "abc pvt pvt ltd") = strToCodes "abc pvt" := by decide

example :
    check_company_existence (Except.error "API down") (strToCodes "abc tech") =
      { available := true, exact_matches := none, existing_companies := [],
        total_found := none, error := some "API down" } := by decide

example :
    (validate_naming_conventions (strToCodes "AI Bank Solutions")).is_valid = false := by decide

example :
    (validate_naming_conventions (strToCodes "Xyz Tech Pvt Ltd")).score = 100 := by decide

theorem insertDesc_ne_nil (x : Company) (l : List Company) : insertDesc x l ≠ [] := by
  cases l with
  | nil => simp [insertDesc]
  | cons y ys => simp only [insertDesc]; split <;> simp

theorem isEmpty_take_sortDesc (l : List Company) :
    ((sortDesc l).take 5).isEmpty = l.isEmpty := by
  cases l with
  | nil => rfl
  | cons x xs =>
    simp only [sortDesc]
    cases h : insertDesc x (sortDesc xs) with
    | nil => exact absurd h (insertDesc_ne_nil x _)
    | cons a t => simp [h]

/-- C1: for every query, the `AvailabilityResult` returned by the Conflict
Search satisfies `available == (exact_matches is empty AND similar_matches is
empty)` — the flag is true exactly when both result lists are empty (a missing
`exact_matches` key counts as empty). -/
theorem availability_flag_iff_no_matches (fetchRes : Except String (List Company))
    (name : Str) :
    (check_company_existence fetchRes name).available =
      (((check_company_existence fetchRes name).exact_matches.getD []).isEmpty &&
        (check_company_existence fetchRes name).existing_companies.isEmpty) := by
  cases fetchRes with
  | error e => rfl
  | ok companies =>
    simp only [check_company_existence, Option.getD]
    rw [isEmpty_take_sortDesc]

/-- C3: for every input string, the Convention Validator's result satisfies
`is_valid == (errors is empty)` (warnings never affect validity) and
`score == max(0, 100 - 30*len(errors) - 10*len(warnings))`, which keeps the
score in `[0, 100]`. -/
theorem validator_validity_and_score (name : Str) :
    (validate_naming_conventions name).is_valid =
        (validate_naming_conventions name).errors.isEmpty ∧
    (validate_naming_conventions name).score =
        max 0 (100 - 30 * ((validate_naming_conventions name).errors.length : Int)
          - 10 * ((validate_naming_conventions name).warnings.length : Int)) ∧
    0 ≤ (validate_naming_conventions name).score ∧
    (validate_naming_conventions name).score ≤ 100 := by
  refine ⟨rfl, rfl, le_max_left _ _, ?_⟩
  simp only [validate_naming_conventions]
  exact max_le (by norm_num) (by omega)

/-- C4 counterexample: on `"abc pvt pvt ltd"` the code removes two suffixes
(`"pvt ltd"` and then `"pvt"`, the loop having no early exit) and yields
`"abc"`, while the claimed first-match-wins scan stops after `"pvt ltd"` and
yields `"abc pvt"`. -/
theorem normalizer_not_first_match_only :
    clean_company_name (strToCodes "abc pvt pvt ltd") = strToCodes "abc" ∧
    cleanClaimFirstMatch (strToCodes "abc pvt pvt ltd") = strToCodes "abc pvt" ∧
    clean_company_name (strToCodes "abc pvt pvt ltd") ≠
      cleanClaimFirstMatch (strToCodes "abc pvt pvt ltd") :=
  ⟨by decide, by decide, by decide⟩

theorem stripSuffixScan_eq_foldl (l : List Str) (s : Str) :
    stripSuffixScan s l = l.foldl suffixStep s := by
  induction l generalizing s with
  | nil => rfl
  | cons suf rest ih =>
    simp only [stripSuffixScan, List.foldl]
    by_cases h : endsWithB s suf = true
    · simp [h, suffixStep, ih]
    · simp [h, suffixStep, ih]

/-- C4 amended: the Normalizer scans the fixed suffix list in order and, for
each suffix the current lower-cased string ends with, removes that trailing
suffix and continues with the remaining suffixes (no early exit), so more than
one suffix can be stripped in a single call. -/
theorem normalizer_scans_all_suffixes (name : Str) :
    clean_company_name name = cleanScanAll name := by
  simp [clean_company_name, cleanScanAll, stripSuffixScan_eq_foldl]

/-- C5: whenever the availability has exact matches (and so is unavailable)
and the validation simultaneously has errors, the recommendation is the
exact-match message — priority rule 1 dominates rule 3. -/
theorem recommendation_exact_match_priority (av : AvailabilityResult)
    (vr : ValidationRes) (hav : av.available = false)
    (hex : (av.exact_matches.getD []).isEmpty = false)
    (_hvr : vr.is_valid = false) :
    get_recommendation av vr =
      "Name not available - exact match found in MCA database" := by
  simp [get_recommendation, hav, hex]

def av0 : AvailabilityResult :=
  { available := false,
    exact_matches := some [⟨strToCodes "abc tech", "U12345DL2020PTC100001", 99⟩],
    existing_companies := [], total_found := some 1, error := none }

def vr0 : ValidationRes :=
  { is_valid := false, errors := [ErrMsg.tooShort], warnings := [], score := 70 }

/-- Witness for C5 at a concrete unavailable-and-invalid input. -/
theorem recommendation_exact_match_priority_witness :
    get_recommendation av0 vr0 =
      "Name not available - exact match found in MCA database" :=
  recommendation_exact_match_priority av0 vr0 rfl rfl rfl

/-- C6: when the candidate fetch fails, the Conflict Search does not propagate
the failure: it returns `available = true`, the failure message as an attached
diagnostic, and an empty similar-match list. -/
theorem conflict_search_fail_open (e : String) (name : Str) :
    (check_company_existence (Except.error e) name).available = true ∧
    (check_company_existence (Except.error e) name).error = some e ∧
    (check_company_existence (Except.error e) name).existing_companies = [] :=
  ⟨rfl, rfl, rfl⟩

/-- C7 counterexample: with a failing Convention Validator the Engine Facade
does not propagate the failure nor produce a complete result — its `except`
branch converts the failure into the degraded dict
`{"error": ..., "name": ..., "is_available": False}`. -/
theorem run_validator_failure_not_complete :
    (MCA_run (Except.ok []) (Except.error "boom") (strToCodes "Abc Pvt Ltd")).isComplete
        = false ∧
    MCA_run (Except.ok []) (Except.error "boom") (strToCodes "Abc Pvt Ltd") =
      RunResult.errorResult "boom" (strToCodes "Abc Pvt Ltd") false :=
  ⟨rfl, rfl⟩

/-- C7 amended: if the Convention Validator fails during a check call, the
Engine Facade catches the failure and returns the error dict carrying the
failure message, the original name and `is_available = false` — a degraded,
partially-populated result rather than a propagated engine-level failure or a
complete `EngineResult`. -/
theorem run_catches_validator_failure (fetchRes : Except String (List Company))
    (e : String) (name : Str) :
    MCA_run fetchRes (Except.error e) name = RunResult.errorResult e name false := rfl

/-- C2: each fetched candidate is classified by its similarity score against
the normalized query: strictly above 95 it joins the exact matches unmodified,
strictly above 70 and at most 95 it joins the similar matches annotated with
its score, and at 70 or below it is discarded from both lists. -/
theorem classification_thresholds (name : Str) (l : List Company) :
    (classifyCompanies name l).1 =
        l.filter (fun c => decide (95 < simScore name c)) ∧
    (classifyCompanies name l).2 =
        (l.filter (fun c =>
            decide (70 < simScore name c) && decide (simScore name c ≤ 95))).map
          (fun c => setSim c (simScore name c)) := by
  induction l with
  | nil => exact ⟨rfl, rfl⟩
  | cons c cs ih =>
    obtain ⟨ih1, ih2⟩ := ih
    simp only [classifyCompanies, List.filter_cons]
    by_cases h95 : 95 < simScore name c
    · have h2 : ¬simScore name c ≤ 95 := by omega
      simp [h95, h2, ih1, ih2]
    · by_cases h70 : 70 < simScore name c
      · have h2 : simScore name c ≤ 95 := by omega
        simp [h95, h70, h2, ih1, ih2]
      · simp [h95, h70, ih1, ih2]

theorem insertDesc_perm (x : Company) (l : List Company) :
    List.Perm (insertDesc x l) (x :: l) := by
  induction l with
  | nil => rfl
  | cons y ys ih =>
    simp only [insertDesc]
    split
    · exact (ih.cons y).trans (List.Perm.swap x y ys)
    · rfl

theorem sortDesc_perm (l : List Company) : List.Perm (sortDesc l) l := by
  induction l with
  | nil => rfl
  | cons x xs ih => exact (insertDesc_perm x (sortDesc xs)).trans (ih.cons x)

theorem insertDesc_pairwise (x : Company) (l : List Company)
    (hl : l.Pairwise (fun a b => b.similarity ≤ a.similarity)) :
    (insertDesc x l).Pairwise (fun a b => b.similarity ≤ a.similarity) := by
  induction l with
  | nil => simp [insertDesc]
  | cons y ys ih =>
    rw [List.pairwise_cons] at hl
    simp only [insertDesc]
    split
    · rename_i hxy
      rw [List.pairwise_cons]
      refine ⟨?_, ih hl.2⟩
      intro b hb
      have hb2 := (insertDesc_perm x ys).mem_iff.mp hb
      rcases List.mem_cons.mp hb2 with hbx | hbys
      · subst hbx; exact Nat.le_of_lt hxy
      · exact hl.1 b hbys
    · rename_i hxy
      rw [List.pairwise_cons]
      refine ⟨?_, List.pairwise_cons.mpr hl⟩
      intro b hb
      rcases List.mem_cons.mp hb with rfl | hbys
      · exact Nat.le_of_not_lt hxy
      · exact le_trans (hl.1 b hbys) (Nat.le_of_not_lt hxy)

theorem sortDesc_pairwise (l : List Company) :
    (sortDesc l).Pairwise (fun a b => b.similarity ≤ a.similarity) := by
  induction l with
  | nil => simp [sortDesc]
  | cons x xs ih => exact insertDesc_pairwise x (sortDesc xs) ih

theorem filter_insertDesc (x : Company) (s : Nat) (l : List Company) :
    (insertDesc x l).filter (fun c => c.similarity == s) =
      if x.similarity = s then
        x :: l.filter (fun c => c.similarity == s)
      else l.filter (fun c => c.similarity == s) := by
  induction l with
  | nil => simp only [insertDesc, List.filter]; split <;> simp_all
  | cons y ys ih =>
    simp only [insertDesc]
    split
    · rename_i hxy
      rw [List.filter_cons, List.filter_cons]
      by_cases hx : x.similarity = s
      · have hy : ¬y.similarity = s := by omega
        simp [hx, hy, ih]
      · simp [hx, ih]
    · rw [List.filter_cons, List.filter_cons]
      by_cases hx : x.similarity = s
      · simp [hx]
      · simp [hx]

theorem sortDesc_stable_filter (s : Nat) (l : List Company) :
    (sortDesc l).filter (fun c => c.similarity == s) =
      l.filter (fun c => c.similarity == s) := by
  induction l with
  | nil => rfl
  | cons x xs ih =>
    simp only [sortDesc, filter_insertDesc, List.filter_cons]
    by_cases hx : x.similarity = s
    · simp [hx, ih]
    · simp [hx, ih]

/-- C8: in every `AvailabilityResult` the similar-match list has at most 5
entries and is sorted by similarity descending; it is the 5-element truncation
of the stable descending sort of the classified similar matches, where the
sort is a permutation that keeps the elements of each similarity class in
source order (stability, expressed by filtering on any fixed score). -/
theorem similar_matches_sorted_truncated_stable :
    (∀ (fetchRes : Except String (List Company)) (name : Str),
      (check_company_existence fetchRes name).existing_companies.length ≤ 5 ∧
      (check_company_existence fetchRes name).existing_companies.Pairwise
        (fun a b => b.similarity ≤ a.similarity)) ∧
    (∀ (name : Str) (companies : List Company),
      (check_company_existence (Except.ok companies) name).existing_companies =
        (sortDesc (classifyCompanies name companies).2).take 5 ∧
      List.Perm (sortDesc (classifyCompanies name companies).2)
        (classifyCompanies name companies).2) ∧
    (∀ (l : List Company) (s : Nat),
      (sortDesc l).filter (fun c => c.similarity == s) =
        l.filter (fun c => c.similarity == s)) := by
  refine ⟨?_, ?_, fun l s => sortDesc_stable_filter s l⟩
  · intro fetchRes name
    cases fetchRes with
    | error e => simp [check_company_existence]
    | ok companies =>
      constructor
      · simp only [check_company_existence]
        rw [List.length_take]
        exact min_le_left _ _
      · simp only [check_company_existence]
        exact (sortDesc_pairwise _).sublist (List.take_sublist _ _)
  · intro name companies
    exact ⟨rfl, sortDesc_perm _⟩

theorem lcsLen_self (x : List Nat) : lcsLen x x = x.length := by
  induction x with
  | nil => simp [lcsLen]
  | cons a as ih => simp [lcsLen, ih]

theorem lcsLen_comm (a b : List Nat) : lcsLen a b = lcsLen b a := by
  induction a generalizing b with
  | nil => cases b <;> simp [lcsLen]
  | cons x xs ih =>
    induction b with
    | nil => simp [lcsLen]
    | cons y ys ihb =>
      simp only [lcsLen]
      by_cases hxy : x = y
      · subst hxy
        simp [ih ys]
      · have hyx : ¬y = x := fun h => hxy h.symm
        rw [if_neg hxy, if_neg hyx, ih (y :: ys), ihb, Nat.max_comm]

theorem lcsLen_le_left (a b : List Nat) : lcsLen a b ≤ a.length := by
  induction a generalizing b with
  | nil => cases b <;> simp [lcsLen]
  | cons x xs ih =>
    induction b with
    | nil => simp [lcsLen]
    | cons y ys ihb =>
      simp only [lcsLen]
      by_cases hxy : x = y
      · rw [if_pos hxy, List.length_cons]
        exact Nat.succ_le_succ (ih ys)
      · rw [if_neg hxy]
        refine max_le ihb (le_trans (ih (y :: ys)) ?_)
        simp [List.length_cons]

theorem lcsLen_le_right (a b : List Nat) : lcsLen a b ≤ b.length := by
  rw [lcsLen_comm]
  exact lcsLen_le_left b a

/-- C9: the Similarity Scorer is reflexive on non-empty strings, symmetric,
and always yields an integer in `[0, 100]` (the lower bound holding because
the result is a natural number). -/
theorem similarity_reflexive_symmetric_bounded :
    (∀ x : Str, x ≠ [] → similarity x x = 100) ∧
    (∀ a b : Str, similarity a b = similarity b a) ∧
    (∀ a b : Str, similarity a b ≤ 100) := by
  refine ⟨?_, ?_, ?_⟩
  · intro x hx
    have hlen : x.length ≠ 0 := fun h => hx (List.length_eq_zero.mp h)
    simp only [similarity, lcsLen_self]
    rw [if_neg (by omega)]
    have h2 : 200 * x.length = 100 * (x.length + x.length) := by ring
    rw [h2, Nat.mul_div_cancel]
    omega
  · intro a b
    simp only [similarity, lcsLen_comm a b, Nat.add_comm a.length b.length]
  · intro a b
    simp only [similarity]
    split
    · exact le_refl 100
    · rename_i hT
      have h1 := lcsLen_le_left a b
      have h2 := lcsLen_le_right a b
      have h3 : 200 * lcsLen a b ≤ 100 * (a.length + b.length) := by omega
      calc 200 * lcsLen a b / (a.length + b.length)
          ≤ 100 * (a.length + b.length) / (a.length + b.length) :=
            Nat.div_le_div_right h3
        _ = 100 := by rw [Nat.mul_div_cancel] ; omega

/-- Witness for C9's reflexivity at the concrete non-empty string `"abc"`. -/
theorem similarity_reflexive_witness :
    similarity (strToCodes "abc") (strToCodes "abc") = 100 :=
  similarity_reflexive_symmetric_bounded.1 (strToCodes "abc") (by decide)

/-- A codepoint allowed in a normalized key: ASCII lowercase letter, digit,
or whitespace. -/
def goodChar (n : Nat) : Bool := isLowerCp n || isDigitCp n || isWsCp n

/-- Whether a string has neither a leading nor a trailing whitespace
character. -/
def noEdgeWs (l : Str) : Bool :=
  (match l.head? with | none => true | some a => !isWsCp a) &&
  (match l.getLast? with | none => true | some a => !isWsCp a)

theorem mem_of_mem_dropWhile {p : Nat → Bool} {l : List Nat} {x : Nat}
    (h : x ∈ l.dropWhile p) : x ∈ l := by
  induction l with
  | nil => simp at h
  | cons a t ih =>
    rw [List.dropWhile_cons] at h
    split at h
    · exact List.mem_cons_of_mem a (ih h)
    · exact h

theorem mem_of_mem_trim {s : Str} {x : Nat} (h : x ∈ trim s) : x ∈ s := by
  simp only [trim, trimLeft, trimRight] at h
  have h1 := mem_of_mem_dropWhile h
  rw [List.mem_reverse] at h1
  have h2 := mem_of_mem_dropWhile h1
  rwa [List.mem_reverse] at h2

theorem mem_of_mem_foldl_suffixStep {x : Nat} :
    ∀ (l : List Str) (s : Str), x ∈ l.foldl suffixStep s → x ∈ s := by
  intro l
  induction l with
  | nil => intro s h; simp at h; exact h
  | cons suf rest ih =>
    intro s h
    have h1 := ih (suffixStep s suf) h
    simp only [suffixStep] at h1
    split at h1
    · exact List.take_subset _ _ (mem_of_mem_trim h1)
    · exact h1

theorem lowerCp_not_upper (n : Nat) : isUpperCp (lowerCp n) = false := by
  simp only [lowerCp, isUpperCp]
  split
  · simp only [Bool.and_eq_false_iff, decide_eq_false_iff_not]
    omega
  · rename_i h
    simp only [Bool.and_eq_false_iff, decide_eq_false_iff_not]
    omega

theorem keep_not_upper_good {x : Nat} (hk : keepChar x = true)
    (hu : isUpperCp x = false) : goodChar x = true := by
  simp only [keepChar, isAlnumCp, goodChar, isUpperCp, isLowerCp, isDigitCp, isWsCp,
    Bool.or_eq_true, Bool.and_eq_true, decide_eq_true_eq, beq_iff_eq,
    Bool.and_eq_false_iff, decide_eq_false_iff_not] at hk hu ⊢
  omega

theorem clean_chars_good (name : Str) :
    (clean_company_name name).all goodChar = true := by
  rw [List.all_eq_true]
  intro x hx
  have h1 := mem_of_mem_trim hx
  rw [List.mem_filter] at h1
  obtain ⟨h2, hk⟩ := h1
  have h3 := mem_of_mem_foldl_suffixStep suffixes _ h2
  simp only [lowerStr, List.mem_map] at h3
  obtain ⟨y, _, rfl⟩ := h3
  exact keep_not_upper_good hk (lowerCp_not_upper y)

theorem head_dropWhile_not {p : Nat → Bool} (l : List Nat) {a : Nat}
    (h : (l.dropWhile p).head? = some a) : p a = false := by
  induction l with
  | nil => simp at h
  | cons b t ih =>
    rw [List.dropWhile_cons] at h
    split at h
    · exact ih h
    · rename_i hb
      simp only [List.head?_cons, Option.some.injEq] at h
      subst h
      exact Bool.eq_false_iff.mpr hb

theorem getLast?_dropWhile {p : Nat → Bool} (l : List Nat) :
    l.dropWhile p = [] ∨ (l.dropWhile p).getLast? = l.getLast? := by
  induction l with
  | nil => left; rfl
  | cons b t ih =>
    rw [List.dropWhile_cons]
    split
    · rcases ih with h | h
      · left; exact h
      · rcases ht : t.dropWhile p with _ | ⟨c, t2⟩
        · left; rfl
        · right
          rw [ht] at h
          rw [h]
          rcases t with _ | ⟨d, t3⟩
          · simp at ht
          · rw [List.getLast?_cons_cons]
    · right; rfl

theorem noEdgeWs_trim (s : Str) : noEdgeWs (trim s) = true := by
  rcases hcase : trim s with _ | ⟨a, t⟩
  · simp [noEdgeWs]
  · have hhead : isWsCp a = false := by
      apply head_dropWhile_not (p := isWsCp) (trimRight s)
      rw [← trimLeft, ← trim, hcase]
      rfl
    have hlast : ∀ b, (trim s).getLast? = some b → isWsCp b = false := by
      intro b hb
      rcases getLast?_dropWhile (p := isWsCp) (trimRight s) with h | h
      · rw [← trimLeft, ← trim] at h
        rw [h] at hcase
        simp at hcase
      · rw [← trimLeft, ← trim] at h
        rw [h] at hb
        simp only [trimRight, List.getLast?_reverse] at hb
        exact head_dropWhile_not s.reverse hb
    simp only [noEdgeWs, List.head?_cons]
    rcases hl : (a :: t).getLast? with _ | b
    · simp at hl
    · have hb := hlast b (by rw [hcase]; exact hl)
      simp [hhead, hb, hl]

/-- C10: every normalized key contains only ASCII lowercase letters, digits
and whitespace (in particular no uppercase letters survive), and carries no
leading or trailing whitespace. -/
theorem normalized_key_charset (name : Str) :
    (clean_company_name name).all goodChar = true ∧
    noEdgeWs (clean_company_name name) = true :=
  ⟨clean_chars_good name, noEdgeWs_trim _⟩
